import Mathlib

/-!
Verification development for the irrd update-processing and transactional
persistence core.

The update handler loop is embedded from irrd/updates/handler.py.
The reference checker (irrd/updates/parser.py), the database handler
(irrd/db/api.py) and the bulk loader (irrd/scripts/load_database.py) are not
part of the available sources, so their operations are modelled from the
specification and from the behaviour pinned down by their tests
(irrd/db/tests/test_api.py, irrd/scripts/tests/test_load_database.py).
-/

namespace IrrdModel

/-! ## Candidate results (data model of one submitted object) -/

inductive UpdateRequestType where
  | CREATE
  | MODIFY
  | DELETE
deriving DecidableEq, Repr

inductive UpdateRequestStatus where
  | PENDING
  | VALID
  | ERROR
deriving DecidableEq, Repr

/-- One candidate result, as produced by the external parser: identity,
primary key, object class, rendered text, request type, the keys of the
objects its reference-bearing attributes point to, and the mutable
validation state (status and append-only errors). The field cid models
Python object identity of the result objects held by the handler. -/
structure Candidate where
  cid : Nat
  primaryKey : String
  objectClass : String
  renderedText : String
  requestType : UpdateRequestType
  refs : List String
  status : UpdateRequestStatus
  errors : List String
deriving DecidableEq, Repr

/-- r.is_valid() as used by the handler: status is not ERROR. -/
def Candidate.is_valid (c : Candidate) : Bool :=
  match c.status with
  | UpdateRequestStatus.ERROR => false
  | _ => true

/-! ## Reference checker (modelled from the spec) -/

def hasKey (cache : List String) (k : String) : Bool :=
  decide (k ∈ cache)

def hasId (ids : List Nat) (i : Nat) : Bool :=
  decide (i ∈ ids)

/-- Modelled from the spec: ReferenceChecker.preload of irrd.updates.parser
(absent from the sources). It populates the existence cache from the keys
visible in the Object Store and from the primary keys of the supplied
in-submission candidate pool. -/
def preload (storeKeys : List String) (pool : List Candidate) : List String :=
  storeKeys ++ pool.map (fun c => c.primaryKey)

/-- Whether every reference of the candidate resolves against the cache. -/
def resolves (cache : List String) (c : Candidate) : Bool :=
  c.refs.all (fun r => hasKey cache r)

/-- Modelled from the spec: UpdateRequest.check_references of
irrd.updates.parser (absent from the sources). A candidate already in ERROR
is skipped; otherwise each reference is resolved via the cache, and an
unresolved reference appends an error and marks the candidate ERROR. -/
def check_references (cache : List String) (c : Candidate) : Candidate :=
  if c.status = UpdateRequestStatus.ERROR then c
  else if resolves cache c then c
  else { c with status := UpdateRequestStatus.ERROR,
                errors := c.errors ++ ["unresolvable reference"] }

/-! ## The fixed-point resolution loop of UpdateRequestHandler.handle_object_texts
(embedded from irrd/updates/handler.py, lines 25-33) -/

/-- The candidates of the results list whose identity is in the given
valid_updates list. -/
def candidatesFor (results : List Candidate) (ids : List Nat) : List Candidate :=
  results.filter (fun c => hasId ids c.cid)

/-- [r for r in results if r.is_valid()], as the list of object identities. -/
def validIds (results : List Candidate) : List Nat :=
  (results.filter (fun c => c.is_valid)).map (fun c => c.cid)

/-- result.check_references(reference_checker) for the single result with
identity i, mutating the shared results list in place. -/
def applyCheck (cache : List String) (results : List Candidate) (i : Nat) :
    List Candidate :=
  results.map (fun c => if c.cid = i then check_references cache c else c)

/-- The for-loop of one round: each result of the round-start snapshot is
checked in turn against the cache preloaded at round start. -/
def doChecks (cache : List String) (ids : List Nat) (results : List Candidate) :
    List Candidate :=
  ids.foldl (applyCheck cache) results

structure LoopState where
  results : List Candidate
  valid_updates : List Nat
  previous : List Nat
deriving DecidableEq, Repr

/-- One execution of the while-loop body of handle_object_texts: remember the
snapshot, preload the cache from it, check every snapshot member, and (unless
the snapshot was empty, in which case the comprehension on line 33 never runs)
recompute valid_updates as all results that are still valid - including DELETE
candidates, which line 33 does not exclude. -/
def loopBody (storeKeys : List String) (s : LoopState) : LoopState :=
  let snapshot := s.valid_updates
  let cache := preload storeKeys (candidatesFor s.results snapshot)
  let results2 := doChecks cache snapshot s.results
  { results := results2
    valid_updates := if snapshot.isEmpty then s.valid_updates else validIds results2
    previous := snapshot }

/-- Line 25-26: the initial valid_updates excludes both invalid and DELETE
candidates; previous_valid_updates starts empty. -/
def initState (results : List Candidate) : LoopState :=
  { results := results
    valid_updates :=
      (results.filter
        (fun c => c.is_valid && decide (c.requestType ≠ UpdateRequestType.DELETE))).map
        (fun c => c.cid)
    previous := [] }

/-- The while-loop, bounded by fuel: it stops as soon as valid_updates equals
previous_valid_updates. -/
def loopRun (storeKeys : List String) : Nat → LoopState → LoopState
  | 0, s => s
  | fuel + 1, s =>
      if s.valid_updates = s.previous then s
      else loopRun storeKeys fuel (loopBody storeKeys s)

/-- The state after k executions of the loop body (ignoring the guard). -/
def stateAt (storeKeys : List String) (results : List Candidate) (k : Nat) :
    LoopState :=
  (loopBody storeKeys)^[k] (initState results)

/-- The results list after the resolution loop; fuel results.length + 1
suffices by the termination theorem. -/
def resolutionResults (storeKeys : List String) (results : List Candidate) :
    List Candidate :=
  (loopRun storeKeys (results.length + 1) (initState results)).results

/-! ## Object store (modelled from the spec and irrd/db/tests/test_api.py) -/

/-- A persisted object version: primary key, object class, rendered text, and
the keys of the objects its reference-bearing attributes point to (derived
from its attributes; consulted by the dangling-reference check on DELETE). -/
structure Record where
  pk : String
  objectClass : String
  text : String
  refs : List String
deriving DecidableEq, Repr

inductive PendingOp where
  | upsertOp (r : Record)
  | deleteOp (pk : String)
deriving DecidableEq, Repr

def PendingOp.key : PendingOp → String
  | PendingOp.upsertOp r => r.pk
  | PendingOp.deleteOp pk => pk

/-- Modelled from the spec: the state of irrd.db.api.DatabaseHandler (absent
from the sources). records is the pending batch (dh._records in the test),
txnOps the operations already flushed into the open transaction, and durable
the committed state. -/
structure DatabaseHandler where
  records : List PendingOp
  txnOps : List PendingOp
  durable : List Record
deriving DecidableEq, Repr

def emptyHandler (durable : List Record) : DatabaseHandler :=
  { records := [], txnOps := [], durable := durable }

def batchKeys (h : DatabaseHandler) : List String :=
  h.records.map PendingOp.key

/-- Modelled from the spec: flush writes all pending records into the open
transaction and clears the pending batch, without finalizing. -/
def flush (h : DatabaseHandler) : DatabaseHandler :=
  { h with txnOps := h.txnOps ++ h.records, records := [] }

/-- Modelled from the spec: DatabaseHandler.upsert_object. If the primary key
already appears in the pending batch, the whole batch is flushed first; the
record is then appended; if the batch size now exceeds the configured
threshold T (MAX_RECORDS_CACHE_BEFORE_INSERT), the batch is flushed
immediately. -/
def upsert_object (T : Nat) (h : DatabaseHandler) (r : Record) : DatabaseHandler :=
  let h1 := if (batchKeys h).contains r.pk then flush h else h
  let h2 := { h1 with records := h1.records ++ [PendingOp.upsertOp r] }
  if T < h2.records.length then flush h2 else h2

/-- Modelled from the spec: delete follows the same duplicate-key flush rule
and threshold rule as upsert before being queued. -/
def delete_object (T : Nat) (h : DatabaseHandler) (pk : String) : DatabaseHandler :=
  let h1 := if (batchKeys h).contains pk then flush h else h
  let h2 := { h1 with records := h1.records ++ [PendingOp.deleteOp pk] }
  if T < h2.records.length then flush h2 else h2

/-- Replace-or-insert of a record keyed by primary key. -/
def setRecord (durable : List Record) (r : Record) : List Record :=
  durable.filter (fun x => x.pk != r.pk) ++ [r]

def applyOp (durable : List Record) : PendingOp → List Record
  | PendingOp.upsertOp r => setRecord durable r
  | PendingOp.deleteOp pk => durable.filter (fun x => x.pk != pk)

/-- The state a lookup reads: the committed state plus the flushed (but not
yet committed) operations of the open transaction. Pending, unflushed records
are not visible. -/
def visibleRecords (h : DatabaseHandler) : List Record :=
  h.txnOps.foldl applyOp h.durable

def lookupByKey (h : DatabaseHandler) (k : String) : Option Record :=
  (visibleRecords h).find? (fun r => r.pk == k)

/-- Modelled from the spec: commit flushes any remaining pending records and
finalizes the open transaction into the durable state. -/
def commit (h : DatabaseHandler) : DatabaseHandler :=
  let hf := flush h
  { records := [], txnOps := [], durable := hf.txnOps.foldl applyOp hf.durable }

/-- Modelled from the spec: rollback discards the pending batch and everything
written to the open transaction since the last commit. -/
def rollback (h : DatabaseHandler) : DatabaseHandler :=
  { h with records := [], txnOps := [] }

def visibleKeys (h : DatabaseHandler) : List String :=
  (visibleRecords h).map (fun r => r.pk)

inductive StoreCall where
  | upsertCall (r : Record)
  | deleteCall (pk : String)
deriving DecidableEq, Repr

def applyCall (T : Nat) (h : DatabaseHandler) : StoreCall → DatabaseHandler
  | StoreCall.upsertCall r => upsert_object T h r
  | StoreCall.deleteCall pk => delete_object T h pk

def runCalls (T : Nat) (h : DatabaseHandler) (calls : List StoreCall) :
    DatabaseHandler :=
  calls.foldl (applyCall T) h

def opOf : StoreCall → PendingOp
  | StoreCall.upsertCall r => PendingOp.upsertOp r
  | StoreCall.deleteCall pk => PendingOp.deleteOp pk

/-- The rightmost write to key k in the call sequence, if any: some (some r)
for an upsert of r, some none for a delete. -/
def lastWrite : List StoreCall → String → Option (Option Record)
  | [], _ => none
  | c :: rest, k =>
      match lastWrite rest k with
      | some v => some v
      | none =>
          match c with
          | StoreCall.upsertCall r => if r.pk == k then some (some r) else none
          | StoreCall.deleteCall pk => if pk == k then some none else none

/-- Last-writer-wins reading of a call sequence over a base state. -/
def lastWriteLookup (d : List Record) (calls : List StoreCall) (k : String) :
    Option Record :=
  match lastWrite calls k with
  | some v => v
  | none => d.find? (fun r => r.pk == k)

/-! ## Persistence and reporting of the handler
(embedded from irrd/updates/handler.py, lines 37-52) -/

def recordOf (c : Candidate) : Record :=
  { pk := c.primaryKey, objectClass := c.objectClass, text := c.renderedText,
    refs := c.refs }

/-- The primary keys being deleted in this submission: the still-valid DELETE
candidates. -/
def deletedKeys (results : List Candidate) : List String :=
  (results.filter
    (fun c => c.is_valid && decide (c.requestType = UpdateRequestType.DELETE))).map
    (fun c => c.primaryKey)

/-- Modelled from the spec: the dangling-reference check performed before a
DELETE is allowed - is this key referenced by any persisted object (visible in
the store at the start of the persistence stage) that is not itself being
deleted in this submission? -/
def danglingReferenced (db0 : DatabaseHandler) (dk : List String) (k : String) :
    Bool :=
  (visibleRecords db0).any (fun rec => rec.refs.contains k && decide (rec.pk ∉ dk))

/-- Modelled from the spec: the in-place effect of the persistence pass on a
DELETE candidate whose key is still referenced - it is marked ERROR with an
appended message instead of being deleted; every other candidate is
untouched. -/
def markDangling (db0 : DatabaseHandler) (dk : List String) (c : Candidate) :
    Candidate :=
  match c.requestType with
  | UpdateRequestType.DELETE =>
      if danglingReferenced db0 dk c.primaryKey then
        { c with status := UpdateRequestStatus.ERROR,
                 errors := c.errors ++ ["object is still referenced and cannot be deleted"] }
      else c
  | _ => c

/-- Modelled from the spec: UpdateRequest.save of irrd.updates.parser (absent
from the sources), per spec section 4.2 step 6. CREATE and MODIFY persist via
upsert. A DELETE first passes the dangling-reference check against the store
state db0 at the start of the persistence stage: if the key is referenced by a
persisted object not itself being deleted in this submission, the candidate is
marked ERROR and no store call is made; otherwise it persists via delete.
Returns the updated handler, the store calls made, and the (possibly mutated)
candidate. -/
def save (T : Nat) (db0 : DatabaseHandler) (dk : List String)
    (db : DatabaseHandler) (c : Candidate) :
    DatabaseHandler × List StoreCall × Candidate :=
  match c.requestType with
  | UpdateRequestType.DELETE =>
      if danglingReferenced db0 dk c.primaryKey then
        (db, [], markDangling db0 dk c)
      else
        (delete_object T db c.primaryKey, [StoreCall.deleteCall c.primaryKey], c)
  | _ => (upsert_object T db (recordOf c), [StoreCall.upsertCall (recordOf c)], c)

/-- The store call a still-valid candidate produces, if any: an upsert for
CREATE/MODIFY, a delete for an unreferenced DELETE, nothing for a DELETE
blocked by the dangling-reference check. -/
def gatedCall (db0 : DatabaseHandler) (dk : List String) (c : Candidate) :
    Option StoreCall :=
  match c.requestType with
  | UpdateRequestType.DELETE =>
      if danglingReferenced db0 dk c.primaryKey then none
      else some (StoreCall.deleteCall c.primaryKey)
  | _ => some (StoreCall.upsertCall (recordOf c))

/-- The evolving state of the persistence pass: the database handler, the
store calls made so far, and the processed candidates in order. -/
structure SaveState where
  db : DatabaseHandler
  calls : List StoreCall
  saved : List Candidate
deriving DecidableEq, Repr

/-- One step of lines 37-39: if result.is_valid(), result.save(dh); an invalid
result is skipped (and left unchanged). -/
def saveStep (T : Nat) (db0 : DatabaseHandler) (dk : List String)
    (acc : SaveState) (c : Candidate) : SaveState :=
  if c.is_valid then
    let s := save T db0 dk acc.db c
    { db := s.1, calls := acc.calls ++ s.2.1, saved := acc.saved ++ [s.2.2] }
  else { acc with saved := acc.saved ++ [c] }

/-- Lines 37-39: for result in results, if result.is_valid(),
result.save(dh). -/
def saveAll (T : Nat) (db : DatabaseHandler) (results : List Candidate) :
    SaveState :=
  results.foldl (saveStep T db (deletedKeys results))
    { db := db, calls := [], saved := [] }

/-- Modelled from the spec: result.user_report() of irrd.updates.parser
(absent from the sources) - the self-description of one candidate: key,
class, status and any errors. -/
def Candidate.selfReport (c : Candidate) : String :=
  c.primaryKey ++ " (" ++ c.objectClass ++ "): " ++
    (match c.status with
     | UpdateRequestStatus.PENDING => "PENDING"
     | UpdateRequestStatus.VALID => "VALID"
     | UpdateRequestStatus.ERROR => "ERROR") ++
    String.join (c.errors.map (fun e => "\nERROR: " ++ e))

def reportHeader : String :=
  "DETAILED EXPLANATION:\n" ++
    "~~~~~~~~~~~~~~~~~~~~~~~~~~~~~~~~~~~~~~~~~~~~~~~~~~~~\n"

def reportFooter : String :=
  "~~~~~~~~~~~~~~~~~~~~~~~~~~~~~~~~~~~~~~~~~~~~~~~~~~~~\n"

/-- UpdateRequestHandler.user_report (lines 44-52): one report string built by
appending a section per result, in order. -/
def user_report (results : List Candidate) : String :=
  (results.foldl (fun acc r => acc ++ ("---\n" ++ r.selfReport ++ "\n"))
      reportHeader) ++ reportFooter

/-- The concatenation of the per-candidate sections in list order. -/
def reportSections (results : List Candidate) : String :=
  results.foldr (fun r acc => ("---\n" ++ r.selfReport ++ "\n") ++ acc) ""

/-- UpdateRequestHandler.handle_object_texts (lines 10-42): run the resolution
loop, save every still-valid result, roll back the database handler, and
return the user report (plus, for observation, the final handler state and
the store invocations made). -/
def handle_object_texts (T : Nat) (db : DatabaseHandler)
    (results : List Candidate) : String × DatabaseHandler × List StoreCall :=
  let finalResults := resolutionResults (visibleKeys db) results
  let saved := saveAll T db finalResults
  (user_report saved.saved, rollback saved.db, saved.calls)

/-! ## Bulk loader (modelled from irrd/scripts/tests/test_load_database.py) -/

inductive LoaderCall where
  | deleteAllWithJournal (source : String)
  | disableJournaling
  | commitCall
  | rollbackCall
  | closeCall
deriving DecidableEq, Repr

/-- Modelled from the spec: irrd.scripts.load_database.load (absent from the
sources), whose call sequence is pinned down by test_load_database.py. The
importError argument is the value returned by MirrorFileImportParser.run_import
(None on success, an error string on failure). The result is the exit code,
the ordered database-handler calls, and the lines printed to stdout. -/
def load (source : String) (filename : String) (serial : Nat)
    (importError : Option String) : Nat × List LoaderCall × List String :=
  match importError with
  | none =>
      (0,
       [LoaderCall.deleteAllWithJournal source, LoaderCall.disableJournaling,
        LoaderCall.commitCall, LoaderCall.closeCall],
       [])
  | some e =>
      (1,
       [LoaderCall.deleteAllWithJournal source, LoaderCall.disableJournaling,
        LoaderCall.rollbackCall, LoaderCall.closeCall],
       ["Error occurred while processing object:\n" ++ e])

/-! ## Derived forms used by the proofs -/

/-- One in-place mutation step of the round's for-loop, seen from a single
candidate: the result with identity i is checked, all others are untouched. -/
def stepOne (cache : List String) (c : Candidate) (i : Nat) : Candidate :=
  if c.cid = i then check_references cache c else c

/-- The net effect of one resolution round on one candidate: checked against
the round cache when its identity is in the round snapshot, else untouched. -/
def roundCheck (cache : List String) (ids : List Nat) (c : Candidate) : Candidate :=
  if hasId ids c.cid then check_references cache c else c

/-- Number of candidates whose status is not ERROR. -/
def countValid (results : List Candidate) : Nat :=
  (results.filter (fun c => c.is_valid)).length

/-- The cache preloaded at the start of the round executed from state s. -/
def roundCache (storeKeys : List String) (s : LoopState) : List String :=
  preload storeKeys (candidatesFor s.results s.valid_updates)

/-- The net per-candidate effect of the round executed from state s. -/
def roundFun (storeKeys : List String) (s : LoopState) : Candidate → Candidate :=
  roundCheck (roundCache storeKeys s) s.valid_updates

/-! ## Concrete fixtures for witnesses and counterexamples -/

def demoCreate : Candidate :=
  { cid := 0, primaryKey := "PERSON-A", objectClass := "person",
    renderedText := "text-a", requestType := UpdateRequestType.CREATE,
    refs := [], status := UpdateRequestStatus.VALID, errors := [] }

def demoDelete : Candidate :=
  { cid := 1, primaryKey := "ROUTE-D", objectClass := "route",
    renderedText := "text-d", requestType := UpdateRequestType.DELETE,
    refs := [], status := UpdateRequestStatus.VALID, errors := [] }

def demoResults : List Candidate := [demoCreate, demoDelete]

def chainA : Candidate :=
  { cid := 0, primaryKey := "A", objectClass := "as-set",
    renderedText := "text-A", requestType := UpdateRequestType.CREATE,
    refs := ["B"], status := UpdateRequestStatus.VALID, errors := [] }

def chainB : Candidate :=
  { cid := 1, primaryKey := "B", objectClass := "as-set",
    renderedText := "text-B", requestType := UpdateRequestType.CREATE,
    refs := ["C"], status := UpdateRequestStatus.VALID, errors := [] }

def chainC : Candidate :=
  { cid := 2, primaryKey := "C", objectClass := "as-set",
    renderedText := "text-C", requestType := UpdateRequestType.CREATE,
    refs := ["D"], status := UpdateRequestStatus.VALID, errors := [] }

/-- The A-B-C-D scenario of the comment in handle_object_texts: A refers to B,
B refers to C, C refers to D, and D does not exist. -/
def chainResults : List Candidate := [chainA, chainB, chainC]

def recK1v1 : Record :=
  { pk := "192.0.2.0/24,AS23456", objectClass := "route",
    text := "object-text-1", refs := [] }

def recK1v2 : Record :=
  { pk := "192.0.2.0/24,AS23456", objectClass := "route",
    text := "object-text-2", refs := [] }

def recK2v1 : Record :=
  { pk := "2001:db8::/64,AS23456", objectClass := "route",
    text := "object-text", refs := [] }

/-- A persisted route object that references the person PERSON-K. -/
def c7owner : Record :=
  { pk := "203.0.113.0/24,AS64500", objectClass := "route",
    text := "owner-text", refs := ["PERSON-K"] }

/-- A store whose committed state holds exactly the referencing object. -/
def c7db : DatabaseHandler := emptyHandler [c7owner]

/-- A valid DELETE of the referenced person PERSON-K. -/
def c7delete : Candidate :=
  { cid := 0, primaryKey := "PERSON-K", objectClass := "person",
    renderedText := "text-k", requestType := UpdateRequestType.DELETE,
    refs := [], status := UpdateRequestStatus.VALID, errors := [] }

def c7results : List Candidate := [c7delete]

/-- A handler with threshold 2 holding two pending records. -/
def twoBatch : DatabaseHandler :=
  upsert_object 2 (upsert_object 2 (emptyHandler []) recK1v1) recK2v1

/-- A handler with threshold 1 holding one pending record (the test setup). -/
def oneBatch : DatabaseHandler :=
  upsert_object 1 (emptyHandler []) recK1v1

/-! ## Basic lemmas about validity and a single reference check -/

theorem is_valid_iff {c : Candidate} :
    c.is_valid = true ↔ c.status ≠ UpdateRequestStatus.ERROR := by
  cases h : c.status <;> simp [Candidate.is_valid, h]

theorem check_references_error {cache : List String} {c : Candidate}
    (h : c.status = UpdateRequestStatus.ERROR) :
    check_references cache c = c := by
  simp [check_references, h]

theorem check_references_not_resolved {cache : List String} {c : Candidate}
    (hs : c.status ≠ UpdateRequestStatus.ERROR) (hr : resolves cache c = false) :
    (check_references cache c).status = UpdateRequestStatus.ERROR := by
  simp [check_references, hs, hr]

theorem check_references_cid (cache : List String) (c : Candidate) :
    (check_references cache c).cid = c.cid := by
  unfold check_references
  split
  · rfl
  · split <;> rfl

theorem check_references_primaryKey (cache : List String) (c : Candidate) :
    (check_references cache c).primaryKey = c.primaryKey := by
  unfold check_references
  split
  · rfl
  · split <;> rfl

theorem check_references_refs (cache : List String) (c : Candidate) :
    (check_references cache c).refs = c.refs := by
  unfold check_references
  split
  · rfl
  · split <;> rfl

theorem check_references_requestType (cache : List String) (c : Candidate) :
    (check_references cache c).requestType = c.requestType := by
  unfold check_references
  split
  · rfl
  · split <;> rfl

theorem check_references_valid_mono {cache : List String} {c : Candidate}
    (h : (check_references cache c).is_valid = true) : c.is_valid = true := by
  by_cases hs : c.status = UpdateRequestStatus.ERROR
  · rw [check_references_error hs] at h
    exact h
  · exact is_valid_iff.mpr hs

theorem check_references_idem (cache : List String) (c : Candidate) :
    check_references cache (check_references cache c) = check_references cache c := by
  by_cases hs : c.status = UpdateRequestStatus.ERROR
  · rw [check_references_error hs, check_references_error hs]
  · by_cases hr : resolves cache c = true
    · simp [check_references, hs, hr]
    · have h1 : (check_references cache c).status = UpdateRequestStatus.ERROR := by
        simp [check_references, hs, Bool.eq_false_iff.mpr hr]
      exact check_references_error h1

theorem roundCheck_cid (cache : List String) (ids : List Nat) (c : Candidate) :
    (roundCheck cache ids c).cid = c.cid := by
  unfold roundCheck
  split
  · exact check_references_cid cache c
  · rfl

theorem roundCheck_primaryKey (cache : List String) (ids : List Nat) (c : Candidate) :
    (roundCheck cache ids c).primaryKey = c.primaryKey := by
  unfold roundCheck
  split
  · exact check_references_primaryKey cache c
  · rfl

theorem roundCheck_refs (cache : List String) (ids : List Nat) (c : Candidate) :
    (roundCheck cache ids c).refs = c.refs := by
  unfold roundCheck
  split
  · exact check_references_refs cache c
  · rfl

theorem roundCheck_requestType (cache : List String) (ids : List Nat) (c : Candidate) :
    (roundCheck cache ids c).requestType = c.requestType := by
  unfold roundCheck
  split
  · exact check_references_requestType cache c
  · rfl

theorem roundCheck_valid_mono {cache : List String} {ids : List Nat} {c : Candidate}
    (h : (roundCheck cache ids c).is_valid = true) : c.is_valid = true := by
  unfold roundCheck at h
  by_cases hin : hasId ids c.cid = true
  · rw [if_pos hin] at h
    exact check_references_valid_mono h
  · rw [if_neg hin] at h
    exact h

/-! ## The sequential for-loop of one round equals a single map -/

theorem applyCheck_eq_map (cache : List String) (results : List Candidate) (i : Nat) :
    applyCheck cache results i = results.map (fun c => stepOne cache c i) := rfl

theorem doChecks_map_comm (cache : List String) :
    ∀ (ids : List Nat) (results : List Candidate),
      doChecks cache ids results =
        results.map (fun c => ids.foldl (stepOne cache) c) := by
  intro ids
  induction ids with
  | nil =>
      intro results
      simp [doChecks]
  | cons i ids ih =>
      intro results
      have h1 : doChecks cache (i :: ids) results =
          doChecks cache ids (applyCheck cache results i) := rfl
      rw [h1, ih, applyCheck_eq_map, List.map_map]
      rfl

theorem stepAll_eq_roundCheck (cache : List String) :
    ∀ (ids : List Nat) (c : Candidate),
      ids.foldl (stepOne cache) c = roundCheck cache ids c := by
  intro ids
  induction ids with
  | nil =>
      intro c
      simp [roundCheck, hasId]
  | cons i ids ih =>
      intro c
      by_cases h : c.cid = i
      · have h1 : (i :: ids).foldl (stepOne cache) c =
            ids.foldl (stepOne cache) (check_references cache c) := by
          simp [List.foldl_cons, stepOne, h]
        rw [h1, ih]
        unfold roundCheck
        have hcid : (check_references cache c).cid = c.cid := check_references_cid cache c
        have hmem : hasId (i :: ids) c.cid = true := by
          simp [hasId, h]
        rw [hmem, if_pos rfl, hcid]
        by_cases h2 : hasId ids c.cid = true
        · rw [if_pos h2]
          exact check_references_idem cache c
        · rw [if_neg h2]
      · have h1 : (i :: ids).foldl (stepOne cache) c = ids.foldl (stepOne cache) c := by
          simp [List.foldl_cons, stepOne, h]
        rw [h1, ih]
        unfold roundCheck
        have hmem : hasId (i :: ids) c.cid = hasId ids c.cid := by
          simp [hasId, List.mem_cons, h]
        rw [hmem]

theorem doChecks_eq_map (cache : List String) (ids : List Nat)
    (results : List Candidate) :
    doChecks cache ids results = results.map (roundCheck cache ids) := by
  rw [doChecks_map_comm]
  have h : (fun c => ids.foldl (stepOne cache) c) = roundCheck cache ids :=
    funext (fun c => stepAll_eq_roundCheck cache ids c)
  rw [h]

theorem loopBody_results (storeKeys : List String) (s : LoopState) :
    (loopBody storeKeys s).results =
      s.results.map
        (roundCheck (preload storeKeys (candidatesFor s.results s.valid_updates))
          s.valid_updates) := by
  show doChecks (preload storeKeys (candidatesFor s.results s.valid_updates))
      s.valid_updates s.results = _
  exact doChecks_eq_map _ _ _

/-! ## Counting and membership lemmas for the valid candidate set -/

theorem countValid_cons (c : Candidate) (rs : List Candidate) :
    countValid (c :: rs) = (if c.is_valid then 1 else 0) + countValid rs := by
  by_cases h : c.is_valid = true <;>
    simp [countValid, List.filter_cons, h] <;> omega

theorem countValid_le_length (rs : List Candidate) : countValid rs ≤ rs.length :=
  List.length_filter_le _ _

theorem countValid_pos {rs : List Candidate} {c : Candidate}
    (hc : c ∈ rs) (hv : c.is_valid = true) : 1 ≤ countValid rs := by
  have hmem : c ∈ rs.filter (fun c => c.is_valid) :=
    List.mem_filter.mpr ⟨hc, hv⟩
  have hne : rs.filter (fun c => c.is_valid) ≠ [] := List.ne_nil_of_mem hmem
  have h1 := List.length_pos.mpr hne
  unfold countValid
  omega

theorem countValid_map_le (f : Candidate → Candidate)
    (hf : ∀ c, (f c).is_valid = true → c.is_valid = true) :
    ∀ rs : List Candidate, countValid (rs.map f) ≤ countValid rs := by
  intro rs
  induction rs with
  | nil => simp [countValid]
  | cons c rs ih =>
      rw [List.map_cons, countValid_cons, countValid_cons]
      by_cases hc : c.is_valid = true
      · have h1 : (if (f c).is_valid = true then 1 else 0) ≤ 1 := by
          split <;> omega
        simp only [hc, if_true]
        omega
      · have hfc : (f c).is_valid = false := by
          cases h2 : (f c).is_valid
          · rfl
          · exact absurd (hf c h2) hc
        have h0 : c.is_valid = false := by
          cases h2 : c.is_valid
          · rfl
          · exact absurd h2 hc
        simp only [hfc, h0, Bool.false_eq_true, if_false]
        omega

theorem countValid_map_eq_valid (f : Candidate → Candidate)
    (hf : ∀ c, (f c).is_valid = true → c.is_valid = true) :
    ∀ rs : List Candidate, countValid (rs.map f) = countValid rs →
      ∀ c ∈ rs, (f c).is_valid = c.is_valid := by
  intro rs
  induction rs with
  | nil =>
      intro _ c hc
      exact absurd hc (List.not_mem_nil c)
  | cons c rs ih =>
      intro heq x hx
      rw [List.map_cons, countValid_cons, countValid_cons] at heq
      have hle : countValid (rs.map f) ≤ countValid rs := countValid_map_le f hf rs
      have hhead : (if (f c).is_valid = true then 1 else 0) ≤
          (if c.is_valid = true then 1 else 0) := by
        by_cases h1 : (f c).is_valid = true
        · rw [if_pos h1, if_pos (hf c h1)]
        · rw [if_neg h1]
          omega
      have hheads : (if (f c).is_valid = true then 1 else 0) =
          (if c.is_valid = true then 1 else 0) := by omega
      have htails : countValid (rs.map f) = countValid rs := by omega
      rcases List.mem_cons.mp hx with h | h
      · subst h
        by_cases h1 : (f x).is_valid = true
        · rw [h1, (hf x h1)]
        · have h2 : (f x).is_valid = false := by
            cases hh : (f x).is_valid
            · rfl
            · exact absurd hh h1
          rw [h2] at hheads ⊢
          by_cases h3 : x.is_valid = true
          · rw [h3] at hheads
            simp at hheads
          · cases hh : x.is_valid
            · rfl
            · exact absurd hh h3
      · exact ih htails x h

theorem mem_validIds {rs : List Candidate} {a : Nat} :
    a ∈ validIds rs ↔ ∃ c, c ∈ rs ∧ c.is_valid = true ∧ c.cid = a := by
  unfold validIds
  constructor
  · intro h
    rcases List.mem_map.mp h with ⟨c, hc, rfl⟩
    rcases List.mem_filter.mp hc with ⟨h1, h2⟩
    exact ⟨c, h1, h2, rfl⟩
  · rintro ⟨c, h1, h2, rfl⟩
    exact List.mem_map.mpr ⟨c, List.mem_filter.mpr ⟨h1, h2⟩, rfl⟩

theorem validIds_cons (c : Candidate) (rs : List Candidate) :
    validIds (c :: rs) =
      if c.is_valid then c.cid :: validIds rs else validIds rs := by
  by_cases h : c.is_valid = true <;> simp [validIds, List.filter_cons, h]

theorem validIds_map_subset (f : Candidate → Candidate)
    (hcid : ∀ c, (f c).cid = c.cid)
    (hf : ∀ c, (f c).is_valid = true → c.is_valid = true)
    (rs : List Candidate) : validIds (rs.map f) ⊆ validIds rs := by
  intro a ha
  rcases mem_validIds.mp ha with ⟨x, hx, hval, hcidx⟩
  rcases List.mem_map.mp hx with ⟨c, hc, rfl⟩
  exact mem_validIds.mpr ⟨c, hc, hf c hval, by rw [← hcid c, hcidx]⟩

theorem validIds_map_eq (f : Candidate → Candidate)
    (hcid : ∀ c, (f c).cid = c.cid) :
    ∀ rs : List Candidate, (∀ c ∈ rs, (f c).is_valid = c.is_valid) →
      validIds (rs.map f) = validIds rs := by
  intro rs
  induction rs with
  | nil => intro _; rfl
  | cons c rs ih =>
      intro h
      rw [List.map_cons, validIds_cons, validIds_cons,
        h c (List.mem_cons_self c rs), hcid c,
        ih (fun x hx => h x (List.mem_cons_of_mem c hx))]

theorem map_cid_map (f : Candidate → Candidate)
    (hcid : ∀ c, (f c).cid = c.cid) (rs : List Candidate) :
    (rs.map f).map Candidate.cid = rs.map Candidate.cid := by
  rw [List.map_map]
  have h : (Candidate.cid ∘ f) = Candidate.cid := funext hcid
  rw [h]

theorem mem_candidatesFor {rs : List Candidate} {ids : List Nat} {c : Candidate} :
    c ∈ candidatesFor rs ids ↔ c ∈ rs ∧ c.cid ∈ ids := by
  simp [candidatesFor, List.mem_filter, hasId]

/-! ## The trajectory of loop states -/

theorem stateAt_zero (S : List String) (R : List Candidate) :
    stateAt S R 0 = initState R := rfl

theorem stateAt_succ (S : List String) (R : List Candidate) (k : Nat) :
    stateAt S R (k + 1) = loopBody S (stateAt S R k) :=
  Function.iterate_succ_apply' (loopBody S) k (initState R)

theorem initState_results (R : List Candidate) : (initState R).results = R := rfl

theorem initState_previous (R : List Candidate) : (initState R).previous = [] := rfl

theorem stateAt_results_cids (S : List String) (R : List Candidate) :
    ∀ k, ((stateAt S R k).results).map Candidate.cid = R.map Candidate.cid := by
  intro k
  induction k with
  | zero => rfl
  | succ k ih =>
      rw [stateAt_succ, loopBody_results, map_cid_map _ (roundCheck_cid _ _), ih]

theorem stateAt_previous (S : List String) (R : List Candidate) (k : Nat) :
    (stateAt S R (k + 1)).previous = (stateAt S R k).valid_updates := by
  rw [stateAt_succ]
  rfl

theorem stateAt_vu (S : List String) (R : List Candidate) (k : Nat) :
    (stateAt S R (k + 1)).valid_updates =
      if (stateAt S R k).valid_updates.isEmpty then (stateAt S R k).valid_updates
      else validIds (stateAt S R (k + 1)).results := by
  rw [stateAt_succ]
  rfl

theorem vu_validIds (S : List String) (R : List Candidate) {k : Nat}
    (hk : 1 ≤ k) (h : (stateAt S R k).valid_updates ≠ []) :
    (stateAt S R k).valid_updates = validIds (stateAt S R k).results := by
  obtain ⟨j, rfl⟩ : ∃ j, k = j + 1 := ⟨k - 1, by omega⟩
  rw [stateAt_vu] at h ⊢
  by_cases he : (stateAt S R j).valid_updates.isEmpty = true
  · rw [if_pos he] at h
    exact absurd (List.isEmpty_iff.mp he) h
  · rw [if_neg he]

theorem round_progress (S : List String) (R : List Candidate) {k : Nat}
    (hk : 1 ≤ k) :
    countValid (stateAt S R (k + 1)).results < countValid (stateAt S R k).results ∨
      (stateAt S R (k + 1)).valid_updates = (stateAt S R (k + 1)).previous := by
  have hres : (stateAt S R (k + 1)).results =
      ((stateAt S R k).results).map
        (roundCheck
          (preload S (candidatesFor (stateAt S R k).results
            (stateAt S R k).valid_updates))
          (stateAt S R k).valid_updates) := by
    rw [stateAt_succ, loopBody_results]
  have hmono : ∀ c : Candidate,
      ((roundCheck
          (preload S (candidatesFor (stateAt S R k).results
            (stateAt S R k).valid_updates))
          (stateAt S R k).valid_updates) c).is_valid = true →
        c.is_valid = true := fun c h => roundCheck_valid_mono h
  have hle : countValid (stateAt S R (k + 1)).results ≤
      countValid (stateAt S R k).results := by
    rw [hres]
    exact countValid_map_le _ hmono _
  rcases Nat.lt_or_ge (countValid (stateAt S R (k + 1)).results)
      (countValid (stateAt S R k).results) with hlt | hge
  · exact Or.inl hlt
  · right
    have heq : countValid (stateAt S R (k + 1)).results =
        countValid (stateAt S R k).results := by omega
    have hval : ∀ c ∈ (stateAt S R k).results,
        ((roundCheck
            (preload S (candidatesFor (stateAt S R k).results
              (stateAt S R k).valid_updates))
            (stateAt S R k).valid_updates) c).is_valid = c.is_valid := by
      apply countValid_map_eq_valid _ hmono
      rw [← hres]
      exact heq
    have hvids : validIds (stateAt S R (k + 1)).results =
        validIds (stateAt S R k).results := by
      rw [hres]
      exact validIds_map_eq _ (roundCheck_cid _ _) _ hval
    rw [stateAt_previous, stateAt_vu]
    by_cases he : (stateAt S R k).valid_updates.isEmpty = true
    · rw [if_pos he]
    · rw [if_neg he, hvids]
      exact (vu_validIds S R hk (fun hnil => he (List.isEmpty_iff.mpr hnil))).symm

theorem trajectory_mem (S : List String) (R : List Candidate) :
    ∀ k, ∀ c ∈ R, ∃ d ∈ (stateAt S R k).results,
      d.cid = c.cid ∧ d.primaryKey = c.primaryKey ∧ d.refs = c.refs ∧
        d.requestType = c.requestType := by
  intro k
  induction k with
  | zero =>
      intro c hc
      exact ⟨c, hc, rfl, rfl, rfl, rfl⟩
  | succ k ih =>
      intro c hc
      rcases ih c hc with ⟨d, hd, h1, h2, h3, h4⟩
      refine ⟨roundCheck
          (preload S (candidatesFor (stateAt S R k).results
            (stateAt S R k).valid_updates))
          (stateAt S R k).valid_updates d, ?_, ?_, ?_, ?_, ?_⟩
      · rw [stateAt_succ, loopBody_results]
        exact List.mem_map_of_mem _ hd
      · rw [roundCheck_cid]
        exact h1
      · rw [roundCheck_primaryKey]
        exact h2
      · rw [roundCheck_refs]
        exact h3
      · rw [roundCheck_requestType]
        exact h4

theorem cid_inj_of_nodup {R : List Candidate}
    (hN : (R.map Candidate.cid).Nodup) :
    ∀ c ∈ R, ∀ d ∈ R, c.cid = d.cid → c = d := by
  intro c hc d hd hcd
  exact List.inj_on_of_nodup_map hN hc hd hcd

/-! ## The stable-first-round invariant -/

theorem roundFun_cid (S : List String) (s : LoopState) (c : Candidate) :
    (roundFun S s c).cid = c.cid := roundCheck_cid _ _ _

theorem roundFun_valid_mono {S : List String} {s : LoopState} {c : Candidate}
    (h : (roundFun S s c).is_valid = true) : c.is_valid = true :=
  roundCheck_valid_mono h

theorem loopBody_results2 (S : List String) (s : LoopState) :
    (loopBody S s).results = s.results.map (roundFun S s) :=
  loopBody_results S s

theorem resolves_congr {cache : List String} {c d : Candidate}
    (h : c.refs = d.refs) : resolves cache c = resolves cache d := by
  unfold resolves
  rw [h]

theorem resolves_mono {c1 c2 : List String} {c : Candidate}
    (hsub : ∀ x ∈ c1, x ∈ c2) (h : resolves c1 c = true) :
    resolves c2 c = true := by
  unfold resolves at h ⊢
  rw [List.all_eq_true] at h ⊢
  intro r hr
  exact decide_eq_true (hsub r (of_decide_eq_true (h r hr)))

theorem check_references_pass {cache : List String} {c : Candidate}
    (hs : c.status ≠ UpdateRequestStatus.ERROR) (hr : resolves cache c = true) :
    check_references cache c = c := by
  simp [check_references, hs, hr]

theorem initState_vu_mem {R : List Candidate}
    (hN : (R.map Candidate.cid).Nodup) :
    ∀ c ∈ R, c.cid ∈ (initState R).valid_updates →
      c.is_valid = true ∧ c.requestType ≠ UpdateRequestType.DELETE := by
  intro c hc hmem
  rcases List.mem_map.mp hmem with ⟨d, hd, hdc⟩
  rcases List.mem_filter.mp hd with ⟨hdR, hphi⟩
  have hdceq : d = c := cid_inj_of_nodup hN d hdR c hc hdc
  rw [hdceq] at hphi
  have hphi2 : c.is_valid = true ∧ c.requestType ≠ UpdateRequestType.DELETE := by
    simpa using hphi
  exact hphi2

theorem initState_vu_source {R : List Candidate} {v : Nat}
    (hv : v ∈ (initState R).valid_updates) :
    ∃ c ∈ R, c.cid = v := by
  rcases List.mem_map.mp hv with ⟨d, hd, hdc⟩
  rcases List.mem_filter.mp hd with ⟨hdR, -⟩
  exact ⟨d, hdR, hdc⟩

theorem round1_resolves (S : List String) (R : List Candidate)
    (hN : (R.map Candidate.cid).Nodup)
    (hst : ∀ c ∈ R, (roundFun S (initState R) c).is_valid = c.is_valid) :
    ∀ c ∈ R, c.cid ∈ (initState R).valid_updates →
      resolves (roundCache S (initState R)) c = true := by
  intro c hc hmem
  obtain ⟨hval, -⟩ := initState_vu_mem hN c hc hmem
  have hs : c.status ≠ UpdateRequestStatus.ERROR := is_valid_iff.mp hval
  cases hr : resolves (roundCache S (initState R)) c with
  | true => rfl
  | false =>
      exfalso
      have h1 : (check_references (roundCache S (initState R)) c).status =
          UpdateRequestStatus.ERROR := check_references_not_resolved hs hr
      have h2 := hst c hc
      unfold roundFun roundCheck at h2
      have hid : hasId (initState R).valid_updates c.cid = true :=
        decide_eq_true hmem
      rw [if_pos hid, hval] at h2
      exact (is_valid_iff.mp h2) h1

theorem stable_invariant (S : List String) (R : List Candidate)
    (hN : (R.map Candidate.cid).Nodup)
    (hst : ∀ c ∈ R, (roundFun S (initState R) c).is_valid = c.is_valid)
    (hV : (initState R).valid_updates ≠ []) :
    ∀ k, 1 ≤ k →
      (stateAt S R k).valid_updates = validIds (stateAt S R k).results ∧
        ∀ c ∈ (stateAt S R k).results,
          c.cid ∈ (initState R).valid_updates → c.is_valid = true := by
  have hVmem : ∃ c0 ∈ R, c0.cid ∈ (initState R).valid_updates := by
    rcases List.exists_mem_of_ne_nil _ hV with ⟨v, hv⟩
    rcases initState_vu_source hv with ⟨c0, hc0, hcid⟩
    exact ⟨c0, hc0, by rw [hcid]; exact hv⟩
  intro k hk
  obtain ⟨j, rfl⟩ : ∃ j, k = j + 1 := ⟨k - 1, by omega⟩
  clear hk
  induction j with
  | zero =>
      have hne : ¬ ((stateAt S R 0).valid_updates.isEmpty = true) := fun h =>
        hV (List.isEmpty_iff.mp h)
      refine ⟨?_, ?_⟩
      · rw [stateAt_vu, if_neg hne]
      · intro c hc hmem
        have hres : (stateAt S R 1).results = R.map (roundFun S (initState R)) := by
          rw [stateAt_succ, stateAt_zero, loopBody_results2, initState_results]
        rw [hres] at hc
        rcases List.mem_map.mp hc with ⟨a, ha, rfl⟩
        have h3 : a.cid ∈ (initState R).valid_updates := by
          rw [← roundFun_cid S (initState R) a]
          exact hmem
        have h4 := (initState_vu_mem hN a ha h3).1
        rw [hst a ha]
        exact h4
  | succ j ihj =>
      obtain ⟨hvu, hinv⟩ := ihj
      rcases hVmem with ⟨c0, hc0R, hc0V⟩
      rcases trajectory_mem S R (j + 1) c0 hc0R with ⟨d, hd, hdcid, -, -, -⟩
      have hdvalid : d.is_valid = true := hinv d hd (by rw [hdcid]; exact hc0V)
      have hdin : d.cid ∈ validIds (stateAt S R (j + 1)).results :=
        mem_validIds.mpr ⟨d, hd, hdvalid, rfl⟩
      have hne : (stateAt S R (j + 1)).valid_updates ≠ [] := by
        rw [hvu]
        exact List.ne_nil_of_mem hdin
      have hisE : ¬ ((stateAt S R (j + 1)).valid_updates.isEmpty = true) :=
        fun h => hne (List.isEmpty_iff.mp h)
      refine ⟨?_, ?_⟩
      · rw [stateAt_vu, if_neg hisE]
      · intro c hc hmem
        have hres : (stateAt S R (j + 2)).results =
            ((stateAt S R (j + 1)).results).map
              (roundFun S (stateAt S R (j + 1))) := by
          rw [stateAt_succ, loopBody_results2]
        rw [hres] at hc
        rcases List.mem_map.mp hc with ⟨a, ha, rfl⟩
        have hacid : a.cid ∈ (initState R).valid_updates := by
          rw [← roundFun_cid S (stateAt S R (j + 1)) a]
          exact hmem
        have havalid : a.is_valid = true := hinv a ha hacid
        rcases initState_vu_source hacid with ⟨e0, he0R, he0cid⟩
        rcases trajectory_mem S R (j + 1) e0 he0R with ⟨da, hda, hda1, -, hda3, -⟩
        have hnd : (((stateAt S R (j + 1)).results).map Candidate.cid).Nodup := by
          rw [stateAt_results_cids]
          exact hN
        have hda_eq : da = a :=
          cid_inj_of_nodup hnd da hda a ha (by rw [hda1, he0cid])
        have hres0 : resolves (roundCache S (initState R)) e0 = true :=
          round1_resolves S R hN hst e0 he0R (by rw [he0cid]; exact hacid)
        have hsub : ∀ x ∈ roundCache S (initState R),
            x ∈ roundCache S (stateAt S R (j + 1)) := by
          intro x hx
          unfold roundCache preload at hx ⊢
          rcases List.mem_append.mp hx with hxS | hxP
          · exact List.mem_append.mpr (Or.inl hxS)
          · rcases List.mem_map.mp hxP with ⟨g, hg, hgpk⟩
            rcases mem_candidatesFor.mp hg with ⟨hgR, hgV⟩
            rcases trajectory_mem S R (j + 1) g hgR with ⟨dg, hdg, hdg1, hdg2, -, -⟩
            have hdgvalid : dg.is_valid = true :=
              hinv dg hdg (by rw [hdg1]; exact hgV)
            have hdgin : dg.cid ∈ (stateAt S R (j + 1)).valid_updates := by
              rw [hvu]
              exact mem_validIds.mpr ⟨dg, hdg, hdgvalid, rfl⟩
            refine List.mem_append.mpr (Or.inr ?_)
            exact List.mem_map.mpr
              ⟨dg, mem_candidatesFor.mpr ⟨hdg, hdgin⟩, by rw [hdg2, hgpk]⟩
        have hares : resolves (roundCache S (stateAt S R (j + 1))) a = true := by
          have h1 : resolves (roundCache S (stateAt S R (j + 1))) e0 = true :=
            resolves_mono hsub hres0
          have h2 : a.refs = e0.refs := by rw [← hda_eq, hda3]
          rw [resolves_congr h2]
          exact h1
        have hstatus : a.status ≠ UpdateRequestStatus.ERROR := is_valid_iff.mp havalid
        unfold roundFun roundCheck
        by_cases hin : hasId (stateAt S R (j + 1)).valid_updates a.cid = true
        · rw [if_pos hin, check_references_pass hstatus hares]
          exact havalid
        · rw [if_neg hin]
          exact havalid

theorem stable_count_pos (S : List String) (R : List Candidate)
    (hN : (R.map Candidate.cid).Nodup)
    (hst : ∀ c ∈ R, (roundFun S (initState R) c).is_valid = c.is_valid)
    (hV : (initState R).valid_updates ≠ []) :
    ∀ m, 1 ≤ m → 1 ≤ countValid (stateAt S R m).results := by
  intro m hm
  obtain ⟨-, hinv⟩ := stable_invariant S R hN hst hV m hm
  rcases List.exists_mem_of_ne_nil _ hV with ⟨v, hv⟩
  rcases initState_vu_source hv with ⟨c0, hc0, hcid⟩
  rcases trajectory_mem S R m c0 hc0 with ⟨d, hd, hdcid, -, -, -⟩
  have hdvalid : d.is_valid = true :=
    hinv d hd (by rw [hdcid, hcid]; exact hv)
  exact countValid_pos hd hdvalid

/-! ## Termination of the resolution loop -/

theorem exists_guard_of_count (S : List String) (R : List Candidate) :
    ∀ d k, 1 ≤ k → countValid (stateAt S R k).results ≤ d →
      ∃ j, j ≤ k + d + 1 ∧
        (stateAt S R j).valid_updates = (stateAt S R j).previous := by
  intro d
  induction d with
  | zero =>
      intro k hk hcount
      rcases round_progress S R hk with hlt | heq
      · omega
      · exact ⟨k + 1, by omega, heq⟩
  | succ d ih =>
      intro k hk hcount
      rcases round_progress S R hk with hlt | heq
      · have h1 : countValid (stateAt S R (k + 1)).results ≤ d := by omega
        rcases ih (k + 1) (by omega) h1 with ⟨j, hj, hg⟩
        exact ⟨j, by omega, hg⟩
      · exact ⟨k + 1, by omega, heq⟩

theorem exists_guard_of_count_pos (S : List String) (R : List Candidate)
    (hpos : ∀ m, 1 ≤ m → 1 ≤ countValid (stateAt S R m).results) :
    ∀ d k, 1 ≤ k → countValid (stateAt S R k).results ≤ d + 1 →
      ∃ j, j ≤ k + d + 1 ∧
        (stateAt S R j).valid_updates = (stateAt S R j).previous := by
  intro d
  induction d with
  | zero =>
      intro k hk hcount
      rcases round_progress S R hk with hlt | heq
      · have := hpos (k + 1) (by omega)
        omega
      · exact ⟨k + 1, by omega, heq⟩
  | succ d ih =>
      intro k hk hcount
      rcases round_progress S R hk with hlt | heq
      · have h1 : countValid (stateAt S R (k + 1)).results ≤ d + 1 := by omega
        rcases ih (k + 1) (by omega) h1 with ⟨j, hj, hg⟩
        exact ⟨j, by omega, hg⟩
      · exact ⟨k + 1, by omega, heq⟩

theorem termination_exists (S : List String) (R : List Candidate)
    (hN : (R.map Candidate.cid).Nodup) :
    ∃ j, j ≤ R.length + 1 ∧
      (stateAt S R j).valid_updates = (stateAt S R j).previous := by
  by_cases hV : (initState R).valid_updates = []
  · refine ⟨0, by omega, ?_⟩
    rw [stateAt_zero, hV, initState_previous]
  · have hres1 : (stateAt S R 1).results = R.map (roundFun S (initState R)) := by
      rw [stateAt_succ, stateAt_zero, loopBody_results2, initState_results]
    have hmono : ∀ c : Candidate,
        (roundFun S (initState R) c).is_valid = true → c.is_valid = true :=
      fun c h => roundFun_valid_mono h
    have hle : countValid (stateAt S R 1).results ≤ countValid R := by
      rw [hres1]
      exact countValid_map_le _ hmono _
    have hlen : countValid R ≤ R.length := countValid_le_length R
    have hcount0_pos : 1 ≤ countValid R := by
      rcases List.exists_mem_of_ne_nil _ hV with ⟨v, hv⟩
      rcases initState_vu_source hv with ⟨c0, hc0, hcid⟩
      have hval : c0.is_valid = true :=
        (initState_vu_mem hN c0 hc0 (by rw [hcid]; exact hv)).1
      exact countValid_pos hc0 hval
    rcases Nat.lt_or_ge (countValid (stateAt S R 1).results) (countValid R) with
      hlt | hge
    · have h1 : countValid (stateAt S R 1).results ≤ countValid R - 1 := by omega
      rcases exists_guard_of_count S R (countValid R - 1) 1 (by omega) h1 with
        ⟨j, hj, hg⟩
      exact ⟨j, by omega, hg⟩
    · have heq : countValid (stateAt S R 1).results = countValid R := by omega
      have hst : ∀ c ∈ R, (roundFun S (initState R) c).is_valid = c.is_valid := by
        apply countValid_map_eq_valid _ hmono
        rw [← hres1]
        rw [heq]
      have hpos := stable_count_pos S R hN hst hV
      have h1 : countValid (stateAt S R 1).results ≤ (countValid R - 1) + 1 := by
        omega
      rcases exists_guard_of_count_pos S R hpos (countValid R - 1) 1 (by omega) h1
        with ⟨j, hj, hg⟩
      exact ⟨j, by omega, hg⟩

theorem loopRun_guardFalse (S : List String) :
    ∀ (fuel : Nat) (s : LoopState),
      (∃ j, j ≤ fuel ∧
        ((loopBody S)^[j] s).valid_updates = ((loopBody S)^[j] s).previous) →
      (loopRun S fuel s).valid_updates = (loopRun S fuel s).previous := by
  intro fuel
  induction fuel with
  | zero =>
      intro s h
      rcases h with ⟨j, hj, hg⟩
      have hj0 : j = 0 := by omega
      rw [hj0] at hg
      exact hg
  | succ fuel ih =>
      intro s h
      by_cases hguard : s.valid_updates = s.previous
      · rw [show loopRun S (fuel + 1) s = s from if_pos hguard]
        exact hguard
      · rw [show loopRun S (fuel + 1) s = loopRun S fuel (loopBody S s) from
          if_neg hguard]
        rcases h with ⟨j, hj, hg⟩
        rcases j with - | j
        · exact absurd hg hguard
        · refine ih (loopBody S s) ⟨j, by omega, ?_⟩
          rw [← Function.iterate_succ_apply (loopBody S) j s]
          exact hg

theorem loopRun_stable (S : List String) :
    ∀ (fuel : Nat) (s : LoopState),
      (loopRun S fuel s).valid_updates = (loopRun S fuel s).previous →
      ∀ m, loopRun S (fuel + m) s = loopRun S fuel s := by
  intro fuel
  induction fuel with
  | zero =>
      intro s h m
      rw [Nat.zero_add]
      cases m with
      | zero => rfl
      | succ m => exact if_pos h
  | succ fuel ih =>
      intro s h m
      by_cases hguard : s.valid_updates = s.previous
      · rw [show loopRun S (fuel + 1) s = s from if_pos hguard]
        rw [show fuel + 1 + m = (fuel + m) + 1 by omega]
        exact if_pos hguard
      · rw [show loopRun S (fuel + 1) s = loopRun S fuel (loopBody S s) from
          if_neg hguard] at h ⊢
        rw [show fuel + 1 + m = (fuel + m) + 1 by omega]
        rw [show loopRun S ((fuel + m) + 1) s =
          loopRun S (fuel + m) (loopBody S s) from if_neg hguard]
        exact ih (loopBody S s) h m

/-! ## Object store lemmas -/

theorem flush_concat (h : DatabaseHandler) :
    (flush h).txnOps ++ (flush h).records = h.txnOps ++ h.records := by
  simp [flush]

theorem applyCall_ops (T : Nat) (h : DatabaseHandler) (call : StoreCall) :
    (applyCall T h call).txnOps ++ (applyCall T h call).records =
      (h.txnOps ++ h.records) ++ [opOf call] := by
  cases call with
  | upsertCall r =>
      show (upsert_object T h r).txnOps ++ (upsert_object T h r).records = _
      unfold upsert_object
      by_cases h1 : (batchKeys h).contains r.pk = true
      · rw [if_pos h1]
        by_cases h2 : T < ((flush h).records ++ [PendingOp.upsertOp r]).length
        · rw [if_pos h2]
          simp [flush, opOf]
        · rw [if_neg h2]
          simp [flush, opOf]
      · rw [if_neg h1]
        by_cases h2 : T < (h.records ++ [PendingOp.upsertOp r]).length
        · rw [if_pos h2]
          simp [flush, opOf]
        · rw [if_neg h2]
          simp [flush, opOf]
  | deleteCall pk =>
      show (delete_object T h pk).txnOps ++ (delete_object T h pk).records = _
      unfold delete_object
      by_cases h1 : (batchKeys h).contains pk = true
      · rw [if_pos h1]
        by_cases h2 : T < ((flush h).records ++ [PendingOp.deleteOp pk]).length
        · rw [if_pos h2]
          simp [flush, opOf]
        · rw [if_neg h2]
          simp [flush, opOf]
      · rw [if_neg h1]
        by_cases h2 : T < (h.records ++ [PendingOp.deleteOp pk]).length
        · rw [if_pos h2]
          simp [flush, opOf]
        · rw [if_neg h2]
          simp [flush, opOf]

theorem applyCall_durable (T : Nat) (h : DatabaseHandler) (call : StoreCall) :
    (applyCall T h call).durable = h.durable := by
  cases call with
  | upsertCall r =>
      show (upsert_object T h r).durable = h.durable
      unfold upsert_object
      by_cases h1 : (batchKeys h).contains r.pk = true
      · rw [if_pos h1]
        by_cases h2 : T < ((flush h).records ++ [PendingOp.upsertOp r]).length
        · rw [if_pos h2]
          simp [flush]
        · rw [if_neg h2]
          simp [flush]
      · rw [if_neg h1]
        by_cases h2 : T < (h.records ++ [PendingOp.upsertOp r]).length
        · rw [if_pos h2]
          simp [flush]
        · rw [if_neg h2]
  | deleteCall pk =>
      show (delete_object T h pk).durable = h.durable
      unfold delete_object
      by_cases h1 : (batchKeys h).contains pk = true
      · rw [if_pos h1]
        by_cases h2 : T < ((flush h).records ++ [PendingOp.deleteOp pk]).length
        · rw [if_pos h2]
          simp [flush]
        · rw [if_neg h2]
          simp [flush]
      · rw [if_neg h1]
        by_cases h2 : T < (h.records ++ [PendingOp.deleteOp pk]).length
        · rw [if_pos h2]
          simp [flush]
        · rw [if_neg h2]

theorem runCalls_ops (T : Nat) :
    ∀ (calls : List StoreCall) (h : DatabaseHandler),
      (runCalls T h calls).txnOps ++ (runCalls T h calls).records =
        (h.txnOps ++ h.records) ++ calls.map opOf := by
  intro calls
  induction calls with
  | nil =>
      intro h
      simp [runCalls]
  | cons c rest ih =>
      intro h
      have h1 : runCalls T h (c :: rest) = runCalls T (applyCall T h c) rest := rfl
      rw [h1, ih, applyCall_ops]
      simp

theorem runCalls_durable (T : Nat) :
    ∀ (calls : List StoreCall) (h : DatabaseHandler),
      (runCalls T h calls).durable = h.durable := by
  intro calls
  induction calls with
  | nil => intro h; rfl
  | cons c rest ih =>
      intro h
      have h1 : runCalls T h (c :: rest) = runCalls T (applyCall T h c) rest := rfl
      rw [h1, ih, applyCall_durable]

theorem applyCall_records_le (T : Nat) (h : DatabaseHandler) (call : StoreCall) :
    (applyCall T h call).records.length ≤ T := by
  cases call with
  | upsertCall r =>
      show (upsert_object T h r).records.length ≤ T
      unfold upsert_object
      by_cases h1 : (batchKeys h).contains r.pk = true
      · rw [if_pos h1]
        by_cases h2 : T < ((flush h).records ++ [PendingOp.upsertOp r]).length
        · rw [if_pos h2]
          simp [flush]
        · rw [if_neg h2]
          simp only []
          omega
      · rw [if_neg h1]
        by_cases h2 : T < (h.records ++ [PendingOp.upsertOp r]).length
        · rw [if_pos h2]
          simp [flush]
        · rw [if_neg h2]
          simp only []
          omega
  | deleteCall pk =>
      show (delete_object T h pk).records.length ≤ T
      unfold delete_object
      by_cases h1 : (batchKeys h).contains pk = true
      · rw [if_pos h1]
        by_cases h2 : T < ((flush h).records ++ [PendingOp.deleteOp pk]).length
        · rw [if_pos h2]
          simp [flush]
        · rw [if_neg h2]
          simp only []
          omega
      · rw [if_neg h1]
        by_cases h2 : T < (h.records ++ [PendingOp.deleteOp pk]).length
        · rw [if_pos h2]
          simp [flush]
        · rw [if_neg h2]
          simp only []
          omega

theorem batchKeys_applyCall_nodup (T : Nat) (h : DatabaseHandler) (call : StoreCall)
    (hN : (batchKeys h).Nodup) : (batchKeys (applyCall T h call)).Nodup := by
  cases call with
  | upsertCall r =>
      show (batchKeys (upsert_object T h r)).Nodup
      unfold upsert_object
      by_cases h1 : (batchKeys h).contains r.pk = true
      · rw [if_pos h1]
        by_cases h2 : T < ((flush h).records ++ [PendingOp.upsertOp r]).length
        · rw [if_pos h2]
          simp [flush, batchKeys]
        · rw [if_neg h2]
          simp [flush, batchKeys]
      · rw [if_neg h1]
        by_cases h2 : T < (h.records ++ [PendingOp.upsertOp r]).length
        · rw [if_pos h2]
          simp [flush, batchKeys]
        · rw [if_neg h2]
          have hnm : r.pk ∉ batchKeys h := fun hm =>
            h1 (List.elem_iff.mpr hm)
          have hgoal : (batchKeys h ++ [r.pk]).Nodup := by
            rw [List.nodup_append]
            refine ⟨hN, List.nodup_singleton r.pk, ?_⟩
            intro a ha hak
            rw [List.mem_singleton] at hak
            rw [hak] at ha
            exact hnm ha
          simpa [batchKeys] using hgoal
  | deleteCall pk =>
      show (batchKeys (delete_object T h pk)).Nodup
      unfold delete_object
      by_cases h1 : (batchKeys h).contains pk = true
      · rw [if_pos h1]
        by_cases h2 : T < ((flush h).records ++ [PendingOp.deleteOp pk]).length
        · rw [if_pos h2]
          simp [flush, batchKeys]
        · rw [if_neg h2]
          simp [flush, batchKeys]
      · rw [if_neg h1]
        by_cases h2 : T < (h.records ++ [PendingOp.deleteOp pk]).length
        · rw [if_pos h2]
          simp [flush, batchKeys]
        · rw [if_neg h2]
          have hnm : pk ∉ batchKeys h := fun hm =>
            h1 (List.elem_iff.mpr hm)
          have hgoal : (batchKeys h ++ [pk]).Nodup := by
            rw [List.nodup_append]
            refine ⟨hN, List.nodup_singleton pk, ?_⟩
            intro a ha hak
            rw [List.mem_singleton] at hak
            rw [hak] at ha
            exact hnm ha
          simpa [batchKeys] using hgoal

theorem batchKeys_runCalls_nodup (T : Nat) :
    ∀ (calls : List StoreCall) (h : DatabaseHandler),
      (batchKeys h).Nodup → (batchKeys (runCalls T h calls)).Nodup := by
  intro calls
  induction calls with
  | nil => intro h hN; exact hN
  | cons c rest ih =>
      intro h hN
      exact ih (applyCall T h c) (batchKeys_applyCall_nodup T h c hN)

/-! ## Lookup semantics of the transaction fold -/

theorem find?_setRecord (d : List Record) (r : Record) (k : String) :
    (setRecord d r).find? (fun x => x.pk == k) =
      if r.pk = k then some r else d.find? (fun x => x.pk == k) := by
  induction d with
  | nil =>
      by_cases h : r.pk = k
      · have hk : (r.pk == k) = true := beq_iff_eq.mpr h
        simp [setRecord, List.find?, hk, h]
      · have hk : (r.pk == k) = false := beq_eq_false_iff_ne.mpr h
        simp [setRecord, List.find?, hk, h]
  | cons x d ih =>
      by_cases hq : x.pk = r.pk
      · have h1 : setRecord (x :: d) r = setRecord d r := by
          simp [setRecord, List.filter_cons, hq]
        rw [h1, ih]
        by_cases h2 : r.pk = k
        · rw [if_pos h2, if_pos h2]
        · rw [if_neg h2, if_neg h2]
          have hx : (x.pk == k) = false := by
            rw [beq_eq_false_iff_ne]
            rw [hq]
            exact h2
          simp [List.find?_cons, hx]
      · have h1 : setRecord (x :: d) r = x :: setRecord d r := by
          simp [setRecord, List.filter_cons, hq]
        rw [h1]
        by_cases hx : x.pk = k
        · have hxk : (x.pk == k) = true := beq_iff_eq.mpr hx
          have hrk : ¬ (r.pk = k) := by
            intro hr
            exact hq (by rw [hx, hr])
          rw [if_neg hrk]
          simp [List.find?_cons, hxk]
        · have hxk : (x.pk == k) = false := beq_eq_false_iff_ne.mpr hx
          simp only [List.find?_cons, hxk]
          rw [ih]

theorem find?_deleteKey (pk : String) (k : String) :
    ∀ d : List Record,
      (d.filter (fun x => x.pk != pk)).find? (fun x => x.pk == k) =
        if pk = k then none else d.find? (fun x => x.pk == k) := by
  intro d
  induction d with
  | nil => by_cases h : pk = k <;> simp [List.find?, h]
  | cons x d ih =>
      by_cases hx : x.pk = pk
      · have h1 : (x :: d).filter (fun x => x.pk != pk) =
            d.filter (fun x => x.pk != pk) := by
          simp [List.filter_cons, hx]
        rw [h1, ih]
        by_cases h2 : pk = k
        · rw [if_pos h2, if_pos h2]
        · rw [if_neg h2, if_neg h2]
          have hxk : (x.pk == k) = false := by
            rw [beq_eq_false_iff_ne, hx]
            exact h2
          simp [List.find?_cons, hxk]
      · have h1 : (x :: d).filter (fun x => x.pk != pk) =
            x :: d.filter (fun x => x.pk != pk) := by
          simp [List.filter_cons, hx]
        rw [h1]
        by_cases hxk : x.pk = k
        · have hp : pk ≠ k := by
            intro hp
            exact hx (by rw [hxk, hp])
          have hxk2 : (x.pk == k) = true := beq_iff_eq.mpr hxk
          rw [if_neg hp]
          simp [List.find?_cons, hxk2]
        · have hxk2 : (x.pk == k) = false := beq_eq_false_iff_ne.mpr hxk
          simp only [List.find?_cons, hxk2]
          rw [ih]

theorem foldl_applyOp_find (k : String) :
    ∀ (calls : List StoreCall) (d : List Record),
      ((calls.map opOf).foldl applyOp d).find? (fun r => r.pk == k) =
        lastWriteLookup d calls k := by
  intro calls
  induction calls with
  | nil => intro d; rfl
  | cons c rest ih =>
      intro d
      have h1 : ((c :: rest).map opOf).foldl applyOp d =
          (rest.map opOf).foldl applyOp (applyOp d (opOf c)) := rfl
      rw [h1, ih]
      unfold lastWriteLookup
      cases c with
      | upsertCall r =>
          have hcons : lastWrite (StoreCall.upsertCall r :: rest) k =
              match lastWrite rest k with
              | some v => some v
              | none => if r.pk == k then some (some r) else none := rfl
          rw [hcons]
          cases hlw : lastWrite rest k with
          | some v => rfl
          | none =>
              have h3 : applyOp d (opOf (StoreCall.upsertCall r)) = setRecord d r := rfl
              rw [h3, find?_setRecord]
              by_cases h4 : r.pk = k
              · have hb : (r.pk == k) = true := beq_iff_eq.mpr h4
                rw [if_pos h4, hb]
                rfl
              · have hb : (r.pk == k) = false := beq_eq_false_iff_ne.mpr h4
                rw [if_neg h4, hb]
                rfl
      | deleteCall pk =>
          have hcons : lastWrite (StoreCall.deleteCall pk :: rest) k =
              match lastWrite rest k with
              | some v => some v
              | none => if pk == k then some none else none := rfl
          rw [hcons]
          cases hlw : lastWrite rest k with
          | some v => rfl
          | none =>
              have h3 : applyOp d (opOf (StoreCall.deleteCall pk)) =
                  d.filter (fun x => x.pk != pk) := rfl
              rw [h3, find?_deleteKey]
              by_cases h4 : pk = k
              · have hb : (pk == k) = true := beq_iff_eq.mpr h4
                rw [if_pos h4, hb]
                rfl
              · have hb : (pk == k) = false := beq_eq_false_iff_ne.mpr h4
                rw [if_neg h4, hb]
                rfl

theorem commit_runCalls_lookup (T : Nat) (d : List Record)
    (calls : List StoreCall) (k : String) :
    lookupByKey (commit (runCalls T (emptyHandler d) calls)) k =
      lastWriteLookup d calls k := by
  have hops : (runCalls T (emptyHandler d) calls).txnOps ++
      (runCalls T (emptyHandler d) calls).records = calls.map opOf := by
    rw [runCalls_ops]
    rfl
  have hdur : (runCalls T (emptyHandler d) calls).durable = d :=
    runCalls_durable T calls (emptyHandler d)
  have h1 : lookupByKey (commit (runCalls T (emptyHandler d) calls)) k =
      (((runCalls T (emptyHandler d) calls).txnOps ++
          (runCalls T (emptyHandler d) calls).records).foldl applyOp
        (runCalls T (emptyHandler d) calls).durable).find? (fun r => r.pk == k) := by
    unfold lookupByKey visibleRecords commit flush
    simp
  rw [h1, hops, hdur]
  exact foldl_applyOp_find k calls d

theorem rollback_runCalls_lookup (T : Nat) (d : List Record)
    (calls : List StoreCall) (k : String) :
    lookupByKey (rollback (runCalls T (emptyHandler d) calls)) k =
      lookupByKey (emptyHandler d) k := by
  have hdur : (runCalls T (emptyHandler d) calls).durable = d :=
    runCalls_durable T calls (emptyHandler d)
  unfold lookupByKey visibleRecords rollback
  simp only [List.foldl_nil]
  rw [hdur]
  rfl

/-! ## Persistence pass and report lemmas -/

theorem save_calls_eq (T : Nat) (db0 : DatabaseHandler) (dk : List String)
    (db : DatabaseHandler) (c : Candidate) :
    (save T db0 dk db c).2.1 = (gatedCall db0 dk c).toList := by
  unfold save gatedCall
  cases c.requestType with
  | DELETE =>
      by_cases h : danglingReferenced db0 dk c.primaryKey = true
      · rw [if_pos h, if_pos h]
        rfl
      · rw [if_neg h, if_neg h]
        rfl
  | CREATE => rfl
  | MODIFY => rfl

theorem save_saved_eq (T : Nat) (db0 : DatabaseHandler) (dk : List String)
    (db : DatabaseHandler) (c : Candidate) :
    (save T db0 dk db c).2.2 = markDangling db0 dk c := by
  unfold save
  cases hrt : c.requestType with
  | DELETE =>
      by_cases h : danglingReferenced db0 dk c.primaryKey = true
      · rw [if_pos h]
      · rw [if_neg h]
        unfold markDangling
        rw [hrt, if_neg h]
  | CREATE =>
      unfold markDangling
      rw [hrt]
  | MODIFY =>
      unfold markDangling
      rw [hrt]

theorem save_durable (T : Nat) (db0 : DatabaseHandler) (dk : List String)
    (db : DatabaseHandler) (c : Candidate) :
    ((save T db0 dk db c).1).durable = db.durable := by
  unfold save
  cases c.requestType with
  | DELETE =>
      by_cases h : danglingReferenced db0 dk c.primaryKey = true
      · rw [if_pos h]
      · rw [if_neg h]
        exact applyCall_durable T db (StoreCall.deleteCall c.primaryKey)
  | CREATE => exact applyCall_durable T db (StoreCall.upsertCall (recordOf c))
  | MODIFY => exact applyCall_durable T db (StoreCall.upsertCall (recordOf c))

theorem markDangling_cid (db0 : DatabaseHandler) (dk : List String)
    (c : Candidate) : (markDangling db0 dk c).cid = c.cid := by
  unfold markDangling
  cases c.requestType with
  | DELETE =>
      by_cases h : danglingReferenced db0 dk c.primaryKey = true
      · rw [if_pos h]
      · rw [if_neg h]
  | CREATE => rfl
  | MODIFY => rfl

theorem saveAll_fold_calls (T : Nat) (db0 : DatabaseHandler) (dk : List String) :
    ∀ (rs : List Candidate) (acc : SaveState),
      (rs.foldl (saveStep T db0 dk) acc).calls =
        acc.calls ++ (rs.filter (fun c => c.is_valid)).filterMap (gatedCall db0 dk) := by
  intro rs
  induction rs with
  | nil =>
      intro acc
      simp
  | cons c rs ih =>
      intro acc
      by_cases hc : c.is_valid = true
      · have hstep : saveStep T db0 dk acc c =
            { db := (save T db0 dk acc.db c).1,
              calls := acc.calls ++ (save T db0 dk acc.db c).2.1,
              saved := acc.saved ++ [(save T db0 dk acc.db c).2.2] } := by
          unfold saveStep
          rw [if_pos hc]
        rw [List.foldl_cons, hstep, ih]
        rw [save_calls_eq, List.filter_cons, if_pos hc, List.filterMap_cons]
        cases hg : gatedCall db0 dk c with
        | some call => simp [List.append_assoc]
        | none => simp
      · have hstep : saveStep T db0 dk acc c =
            { acc with saved := acc.saved ++ [c] } := by
          unfold saveStep
          rw [if_neg hc]
        rw [List.foldl_cons, hstep, ih, List.filter_cons, if_neg hc]

theorem saveAll_fold_saved (T : Nat) (db0 : DatabaseHandler) (dk : List String) :
    ∀ (rs : List Candidate) (acc : SaveState),
      (rs.foldl (saveStep T db0 dk) acc).saved =
        acc.saved ++ rs.map (fun c => if c.is_valid then markDangling db0 dk c else c) := by
  intro rs
  induction rs with
  | nil =>
      intro acc
      simp
  | cons c rs ih =>
      intro acc
      by_cases hc : c.is_valid = true
      · have hstep : saveStep T db0 dk acc c =
            { db := (save T db0 dk acc.db c).1,
              calls := acc.calls ++ (save T db0 dk acc.db c).2.1,
              saved := acc.saved ++ [(save T db0 dk acc.db c).2.2] } := by
          unfold saveStep
          rw [if_pos hc]
        rw [List.foldl_cons, hstep, ih, save_saved_eq, List.map_cons, if_pos hc]
        simp [List.append_assoc]
      · have hstep : saveStep T db0 dk acc c =
            { acc with saved := acc.saved ++ [c] } := by
          unfold saveStep
          rw [if_neg hc]
        rw [List.foldl_cons, hstep, ih, List.map_cons, if_neg hc]
        simp [List.append_assoc]

theorem saveAll_fold_durable (T : Nat) (db0 : DatabaseHandler) (dk : List String) :
    ∀ (rs : List Candidate) (acc : SaveState),
      ((rs.foldl (saveStep T db0 dk) acc).db).durable = acc.db.durable := by
  intro rs
  induction rs with
  | nil =>
      intro acc
      rfl
  | cons c rs ih =>
      intro acc
      by_cases hc : c.is_valid = true
      · have hstep : saveStep T db0 dk acc c =
            { db := (save T db0 dk acc.db c).1,
              calls := acc.calls ++ (save T db0 dk acc.db c).2.1,
              saved := acc.saved ++ [(save T db0 dk acc.db c).2.2] } := by
          unfold saveStep
          rw [if_pos hc]
        rw [List.foldl_cons, hstep, ih]
        exact save_durable T db0 dk acc.db c
      · have hstep : saveStep T db0 dk acc c =
            { acc with saved := acc.saved ++ [c] } := by
          unfold saveStep
          rw [if_neg hc]
        rw [List.foldl_cons, hstep, ih]

theorem saveAll_calls (T : Nat) (db : DatabaseHandler) (rs : List Candidate) :
    (saveAll T db rs).calls =
      (rs.filter (fun c => c.is_valid)).filterMap
        (gatedCall db (deletedKeys rs)) := by
  unfold saveAll
  rw [saveAll_fold_calls]
  simp

theorem saveAll_saved (T : Nat) (db : DatabaseHandler) (rs : List Candidate) :
    (saveAll T db rs).saved =
      rs.map (fun c => if c.is_valid then markDangling db (deletedKeys rs) c else c) := by
  unfold saveAll
  rw [saveAll_fold_saved]
  simp

theorem saveAll_durable (T : Nat) (db : DatabaseHandler) (rs : List Candidate) :
    ((saveAll T db rs).db).durable = db.durable := by
  unfold saveAll
  rw [saveAll_fold_durable]

theorem saveAll_saved_cids (T : Nat) (db : DatabaseHandler) (rs : List Candidate) :
    ((saveAll T db rs).saved).map Candidate.cid = rs.map Candidate.cid := by
  rw [saveAll_saved]
  apply map_cid_map
  intro c
  by_cases hc : c.is_valid = true
  · rw [if_pos hc]
    exact markDangling_cid _ _ c
  · rw [if_neg hc]

theorem foldl_report (rs : List Candidate) :
    ∀ pre : String,
      rs.foldl (fun acc r => acc ++ ("---\n" ++ r.selfReport ++ "\n")) pre =
        pre ++ reportSections rs := by
  induction rs with
  | nil =>
      intro pre
      show pre = pre ++ ""
      rw [String.append_empty]
  | cons c rs ih =>
      intro pre
      show rs.foldl _ (pre ++ ("---\n" ++ c.selfReport ++ "\n")) = _
      rw [ih]
      show _ = pre ++ (("---\n" ++ c.selfReport ++ "\n") ++ reportSections rs)
      rw [String.append_assoc]

theorem user_report_sections (rs : List Candidate) :
    user_report rs = reportHeader ++ reportSections rs ++ reportFooter := by
  unfold user_report
  rw [foldl_report]

theorem loopRun_cids (S : List String) :
    ∀ (fuel : Nat) (s : LoopState),
      ((loopRun S fuel s).results).map Candidate.cid =
        (s.results).map Candidate.cid := by
  intro fuel
  induction fuel with
  | zero => intro s; rfl
  | succ fuel ih =>
      intro s
      by_cases hguard : s.valid_updates = s.previous
      · rw [show loopRun S (fuel + 1) s = s from if_pos hguard]
      · rw [show loopRun S (fuel + 1) s = loopRun S fuel (loopBody S s) from
          if_neg hguard]
        rw [ih, loopBody_results2, map_cid_map _ (roundFun_cid S s)]

theorem resolutionResults_cids (S : List String) (R : List Candidate) :
    (resolutionResults S R).map Candidate.cid = R.map Candidate.cid := by
  unfold resolutionResults
  rw [loopRun_cids]
  rfl

/-! ## Claim theorems -/

/-- C1: Monotonic invalidation of the resolution loop: for every submission
and every resolution round, the set of valid (status not ERROR) candidates
computed in round k+1 is a subset of the set computed in round k; a round can
only move candidates from valid to ERROR, never back. -/
theorem monotonic_invalidation (S : List String) (R : List Candidate) (k : Nat) :
    validIds (stateAt S R (k + 1)).results ⊆ validIds (stateAt S R k).results := by
  rw [stateAt_succ, loopBody_results2]
  exact validIds_map_subset _ (roundFun_cid S _) (fun c h => roundFun_valid_mono h) _

/-- C2: Termination bound of the fixed-point loop: for any store contents and
any finite candidate list (with distinct object identities), the while-loop of
handle_object_texts reaches its exit condition within length + 1 body
executions, and running it with any more fuel changes nothing. -/
theorem resolution_terminates (S : List String) (R : List Candidate)
    (hN : (R.map Candidate.cid).Nodup) :
    ((loopRun S (R.length + 1) (initState R)).valid_updates =
      (loopRun S (R.length + 1) (initState R)).previous) ∧
    ∀ m, loopRun S (R.length + 1 + m) (initState R) =
      loopRun S (R.length + 1) (initState R) := by
  have hg : (loopRun S (R.length + 1) (initState R)).valid_updates =
      (loopRun S (R.length + 1) (initState R)).previous := by
    apply loopRun_guardFalse
    rcases termination_exists S R hN with ⟨j, hj, hgj⟩
    exact ⟨j, hj, hgj⟩
  exact ⟨hg, fun m => loopRun_stable S (R.length + 1) (initState R) hg m⟩

/-- Witness for C2: the A-B-C-missing-D chain from the handler's own comment
terminates within 4 rounds. -/
theorem resolution_terminates_witness :
    (loopRun [] (chainResults.length + 1) (initState chainResults)).valid_updates =
      (loopRun [] (chainResults.length + 1) (initState chainResults)).previous :=
  (resolution_terminates [] chainResults (by decide)).1

/-- C3 counterexample: with threshold 2 and a pending batch of two records, a
duplicate-key upsert leaves a batch of size 1, not the pre-duplicate size 2:
the whole batch is flushed, not only the duplicated key. -/
theorem pending_batch_counterexample :
    (batchKeys twoBatch).contains recK1v2.pk = true ∧
    (upsert_object 2 twoBatch recK1v2).records.length ≠ twoBatch.records.length := by
  decide

/-- C3 (amended): the pending batch never holds two records with the same
primary key; a duplicate-key upsert first flushes the whole batch into the
open transaction and then appends the new record, so afterwards (for any
threshold of at least 1) the batch holds exactly the newer version - which
equals the pre-duplicate size precisely when the duplicate was the only
pending record, as is always the case under the test's threshold T = 1. -/
theorem pending_batch_amended :
    (∀ (T : Nat) (d : List Record) (calls : List StoreCall),
        (batchKeys (runCalls T (emptyHandler d) calls)).Nodup) ∧
    (∀ (T : Nat) (h : DatabaseHandler) (r : Record), 1 ≤ T →
        (batchKeys h).contains r.pk = true →
        (upsert_object T h r).records = [PendingOp.upsertOp r] ∧
        (upsert_object T h r).txnOps = h.txnOps ++ h.records) := by
  constructor
  · intro T d calls
    apply batchKeys_runCalls_nodup
    simp [batchKeys, emptyHandler]
  · intro T h r hT hdup
    unfold upsert_object
    rw [if_pos hdup]
    have hlen : ¬ (T < ((flush h).records ++ [PendingOp.upsertOp r]).length) := by
      simp only [flush, List.nil_append, List.length_cons, List.length_nil]
      omega
    rw [if_neg hlen]
    constructor
    · simp [flush]
    · simp [flush]

/-- Witness for C3 (amended), at the test's configuration T = 1: upserting a
second version of the same key over a one-record batch leaves exactly the new
version pending and the old version flushed. -/
theorem pending_batch_amended_witness :
    (upsert_object 1 oneBatch recK1v2).records = [PendingOp.upsertOp recK1v2] ∧
    (upsert_object 1 oneBatch recK1v2).txnOps = oneBatch.txnOps ++ oneBatch.records :=
  pending_batch_amended.2 1 oneBatch recK1v2 (by decide) (by decide)

/-- C4: Threshold flush bound: for every threshold T, every handler state and
every single upsert or delete call, the pending batch size is at most T when
the call returns. -/
theorem threshold_flush (T : Nat) (h : DatabaseHandler) (call : StoreCall) :
    (applyCall T h call).records.length ≤ T :=
  applyCall_records_le T h call

/-- C5 counterexample: a record upserted since the last commit need not be
visible after commit: upsert a record, delete its key, commit - the lookup
returns nothing, refuting that every record upserted since the last commit is
visible via lookupByKey. -/
theorem commit_visibility_counterexample :
    lookupByKey
      (commit (delete_object 10 (upsert_object 10 (emptyHandler []) recK1v1)
        recK1v1.pk))
      recK1v1.pk = none := by
  decide

/-- C5 (amended): after rollback, lookups see exactly the last committed
state; upsert, delete and rollback never change the durable state (only
commit does); after commit the pending batch and the open transaction are
empty, and for every key the lookup reflects the last operation on that key
since the previous commit: the most recent upserted record, absence if last
deleted, or the prior committed value if untouched. -/
theorem commit_rollback_amended :
    (∀ (T : Nat) (d : List Record) (calls : List StoreCall) (k : String),
        lookupByKey (rollback (runCalls T (emptyHandler d) calls)) k =
          lookupByKey (emptyHandler d) k) ∧
    (∀ (T : Nat) (h : DatabaseHandler) (call : StoreCall),
        (applyCall T h call).durable = h.durable ∧
          (rollback h).durable = h.durable) ∧
    (∀ h : DatabaseHandler, (commit h).records = [] ∧ (commit h).txnOps = []) ∧
    (∀ (T : Nat) (d : List Record) (calls : List StoreCall) (k : String),
        lookupByKey (commit (runCalls T (emptyHandler d) calls)) k =
          lastWriteLookup d calls k) := by
  refine ⟨?_, ?_, ?_, ?_⟩
  · exact rollback_runCalls_lookup
  · intro T h call
    exact ⟨applyCall_durable T h call, rfl⟩
  · intro h
    exact ⟨rfl, rfl⟩
  · exact commit_runCalls_lookup

/-- C6 counterexample: a valid CREATE plus a valid DELETE submitted together:
after the first round the recomputed valid_updates list (line 33 filters only
on is_valid) contains the DELETE candidate and differs from the previous
round, so round 2 executes its preload and checks on a set containing a
DELETE candidate - refuting that DELETE candidates are excluded from every
recheck pass. -/
theorem delete_recheck_counterexample :
    ((stateAt [] demoResults 1).valid_updates ≠ (stateAt [] demoResults 1).previous) ∧
    (∃ c ∈ candidatesFor (stateAt [] demoResults 1).results
        (stateAt [] demoResults 1).valid_updates,
      c.requestType = UpdateRequestType.DELETE) := by
  decide

/-- C6 (amended): the set passed to preload and rechecked in the first round
contains only valid non-DELETE candidates, and in every later round only
candidates with status not ERROR - but from round 2 on, still-valid DELETE
candidates are included in the recheck set. -/
theorem delete_recheck_amended (S : List String) (R : List Candidate)
    (hN : (R.map Candidate.cid).Nodup) :
    (∀ c ∈ candidatesFor R (initState R).valid_updates,
        c.is_valid = true ∧ c.requestType ≠ UpdateRequestType.DELETE) ∧
    (∀ k, 1 ≤ k →
      ∀ c ∈ candidatesFor (stateAt S R k).results (stateAt S R k).valid_updates,
        c.is_valid = true) := by
  constructor
  · intro c hc
    rcases mem_candidatesFor.mp hc with ⟨hcR, hcid⟩
    exact initState_vu_mem hN c hcR hcid
  · intro k hk c hc
    rcases mem_candidatesFor.mp hc with ⟨hcR, hcid⟩
    by_cases hne : (stateAt S R k).valid_updates = []
    · rw [hne] at hcid
      exact absurd hcid (List.not_mem_nil _)
    · have hvu := vu_validIds S R hk hne
      rw [hvu] at hcid
      rcases mem_validIds.mp hcid with ⟨e, heR, hev, hecid⟩
      have hnd : (((stateAt S R k).results).map Candidate.cid).Nodup := by
        rw [stateAt_results_cids]
        exact hN
      have heq : e = c := cid_inj_of_nodup hnd e heR c hcR hecid
      rw [← heq]
      exact hev

/-- Witness for C6 (amended): at the CREATE-plus-DELETE example, the DELETE
candidate rechecked in round 2 is indeed still valid. -/
theorem delete_recheck_amended_witness : demoDelete.is_valid = true :=
  (delete_recheck_amended [] demoResults (by decide)).2 1 (by decide)
    demoDelete (by decide)

/-- C7 counterexample: a valid DELETE of a key that a persisted object still
references: after the resolution loop the candidate is still valid, yet the
handler makes no store call at all - the dangling-reference check of the
persistence stage marks it ERROR instead of deleting, refuting that the store
is invoked once for every candidate whose status is not ERROR. -/
theorem persists_counterexample :
    ((resolutionResults (visibleKeys c7db) c7results).filter
        (fun c => c.is_valid) = [c7delete]) ∧
    (handle_object_texts 10 c7db c7results).2.2 = [] := by
  decide

/-- C7 (amended): the store calls of handle_object_texts are exactly, in
order: one upsert per still-valid CREATE/MODIFY candidate, one delete per
still-valid DELETE candidate whose key is not referenced by a visible object
outside this submission's deletions, no call for a DELETE blocked by the
dangling-reference check (it is marked ERROR instead, per markDangling), and
no call for any candidate whose status is ERROR. -/
theorem persists_amended (T : Nat) (db : DatabaseHandler)
    (results : List Candidate) :
    ((handle_object_texts T db results).2.2 =
      ((resolutionResults (visibleKeys db) results).filter
          (fun c => c.is_valid)).filterMap
        (gatedCall db (deletedKeys (resolutionResults (visibleKeys db) results)))) ∧
    ((saveAll T db (resolutionResults (visibleKeys db) results)).saved =
      (resolutionResults (visibleKeys db) results).map
        (fun c =>
          if c.is_valid then
            markDangling db (deletedKeys (resolutionResults (visibleKeys db) results)) c
          else c)) := by
  constructor
  · show (saveAll T db (resolutionResults (visibleKeys db) results)).calls = _
    exact saveAll_calls T db _
  · exact saveAll_saved T db _

/-- C8: Exactly one ordered report per submission: handle_object_texts returns
one report string, the header plus the concatenation of one section per
processed candidate plus the footer, and the processed candidate list
preserves the original submission order (identities in order). -/
theorem single_ordered_report (T : Nat) (db : DatabaseHandler)
    (results : List Candidate) :
    ((handle_object_texts T db results).1 =
      reportHeader ++
        reportSections
          ((saveAll T db (resolutionResults (visibleKeys db) results)).saved)
        ++ reportFooter) ∧
    ((saveAll T db (resolutionResults (visibleKeys db) results)).saved).map
        Candidate.cid = results.map Candidate.cid := by
  constructor
  · show user_report
        ((saveAll T db (resolutionResults (visibleKeys db) results)).saved) = _
    exact user_report_sections _
  · rw [saveAll_saved_cids, resolutionResults_cids]

/-- C9: handle_object_texts always ends in rollback and never commits: the
durable (committed) state of the database handler after the call is exactly
the durable state before it, and the returned handler has an empty pending
batch and an empty open transaction. -/
theorem rollback_frame (T : Nat) (db : DatabaseHandler)
    (results : List Candidate) :
    ((handle_object_texts T db results).2.1).durable = db.durable ∧
    ((handle_object_texts T db results).2.1).records = [] ∧
    ((handle_object_texts T db results).2.1).txnOps = [] := by
  refine ⟨?_, rfl, rfl⟩
  show (rollback (saveAll T db (resolutionResults (visibleKeys db) results)).db).durable
      = db.durable
  have h1 : (rollback (saveAll T db
      (resolutionResults (visibleKeys db) results)).db).durable =
      ((saveAll T db (resolutionResults (visibleKeys db) results)).db).durable := rfl
  rw [h1, saveAll_durable]

/-- C10: the bulk loader is all-or-nothing: on parser success it deletes all
objects for the source with journal, disables journaling, commits, closes and
returns 0 with no output; on parser error it performs the same prefix, rolls
back instead of committing, closes, prints the error and returns 1. -/
theorem load_all_or_nothing (source filename : String) (serial : Nat) :
    (load source filename serial none =
      (0, [LoaderCall.deleteAllWithJournal source, LoaderCall.disableJournaling,
           LoaderCall.commitCall, LoaderCall.closeCall], [])) ∧
    (∀ e : String, load source filename serial (some e) =
      (1, [LoaderCall.deleteAllWithJournal source, LoaderCall.disableJournaling,
           LoaderCall.rollbackCall, LoaderCall.closeCall],
        ["Error occurred while processing object:\n" ++ e])) :=
  ⟨rfl, fun e => rfl⟩

end IrrdModel
